import Mathlib

/-!
Shallow embedding of `textsearcher-rust` (`src/lib.rs`) and proofs of the
specification's claims about it.

Strings are modelled as `List Char`; the byte view needed by
`approx_substring` is the UTF-8 encoding of that list.  The regex engine
(`regex` crate) is an external black box per the spec; it is modelled as an
abstract `RegexEngine` where only control flow around it matters, and by a
small executable matcher (`fragIsMatch`) restricted to the pattern fragment
that the atom compiler actually emits, where the claims speak about what a
pattern matches.
-/

namespace TextSearcher

/-- Character classes of the atom compiler (the `CharType` enum inside
`_get_regex_for_atom`). -/
inductive CharType where
  | Term
  | Blank
  | Hans
  | Other
deriving DecidableEq

/-- The `get_char_type` closure of `_get_regex_for_atom`: NUL is the
start/end sentinel (`Term`), ASCII space/tab/newline/carriage-return are
`Blank`, code points in U+4E00–U+9FA5 or U+3040–U+30FF are `Hans`,
everything else is `Other`. -/
def get_char_type (ch : Char) : CharType :=
  if ch = Char.ofNat 0 then CharType.Term
  else if ch = ' ' ∨ ch = '\t' ∨ ch = '\n' ∨ ch = '\r' then CharType.Blank
  else if (0x4e00 ≤ ch.toNat ∧ ch.toNat ≤ 0x9fa5)
          ∨ (0x3040 ≤ ch.toNat ∧ ch.toNat ≤ 0x30ff) then CharType.Hans
  else CharType.Other

/-- The characters escaped by `regex::escape` (the `is_meta_character` set of
`regex-syntax`), given by code point. -/
def is_meta_character (c : Char) : Bool :=
  c.toNat ∈ ([92, 46, 43, 42, 63, 40, 41, 124, 91, 93, 123, 125,
              94, 36, 35, 38, 45, 126] : List Nat)

/-- `regex::escape`: prefix every meta character with a backslash. -/
def regex_escape (w : List Char) : List Char :=
  (w.map (fun c => if is_meta_character c then ['\\', c] else [c])).flatten

/-- The mutable locals of `_get_regex_for_atom`: the output `regex`, the
pending `word` buffer, the previous character and the committed flag. -/
structure AtomSt where
  regex : List Char
  word : List Char
  prev_ch : Char
  word_commited : Bool
deriving DecidableEq

/-- Initial state of the `_get_regex_for_atom` loop. -/
def atomInit : AtomSt := ⟨[], [], Char.ofNat 0, false⟩

/-- One iteration of the `for ch in atom.chars().chain("\0".chars())` loop of
`_get_regex_for_atom`, dispatching on `(get_char_type(prev_ch),
get_char_type(ch))` exactly as the Rust `match` does. -/
def atomStep (st : AtomSt) (ch : Char) : AtomSt :=
  match get_char_type st.prev_ch, get_char_type ch with
  | CharType.Term, CharType.Term => st
  | CharType.Term, CharType.Blank => st
  | CharType.Term, CharType.Hans =>
      { st with word := st.word ++ [ch], word_commited := false, prev_ch := ch }
  | CharType.Term, CharType.Other =>
      { st with word := st.word ++ [ch], word_commited := false, prev_ch := ch }
  | CharType.Blank, _ => st
  | CharType.Hans, CharType.Term =>
      if st.word_commited then st
      else { st with regex := st.regex ++ regex_escape st.word,
                     word := [], word_commited := true }
  | CharType.Hans, CharType.Blank =>
      if st.word_commited then st
      else { st with regex := st.regex ++ regex_escape st.word,
                     word := [], word_commited := true }
  | CharType.Hans, CharType.Hans =>
      if st.word_commited then
        { st with regex := st.regex ++ "\\s+".data,
                  word := st.word ++ [ch], word_commited := false, prev_ch := ch }
      else
        { st with regex := st.regex ++ regex_escape st.word ++ "\\s*".data,
                  word := [ch], word_commited := false, prev_ch := ch }
  | CharType.Hans, CharType.Other =>
      let st1 := if st.word_commited then st
        else { st with regex := st.regex ++ regex_escape st.word, word := [] }
      { st1 with regex := st1.regex ++ "\\s*".data,
                 word := st1.word ++ [ch], word_commited := false, prev_ch := ch }
  | CharType.Other, CharType.Term =>
      if st.word_commited then { st with prev_ch := ch }
      else { st with regex := st.regex ++ regex_escape st.word,
                     word := [], word_commited := true, prev_ch := ch }
  | CharType.Other, CharType.Blank =>
      if st.word_commited then st
      else { st with regex := st.regex ++ regex_escape st.word,
                     word := [], word_commited := true }
  | CharType.Other, CharType.Hans =>
      let st1 := if st.word_commited then st
        else { st with regex := st.regex ++ regex_escape st.word, word := [] }
      { st1 with regex := st1.regex ++ "\\s*".data,
                 word := st1.word ++ [ch], word_commited := false, prev_ch := ch }
  | CharType.Other, CharType.Other =>
      { st with regex := st.regex ++ (if st.word_commited then "\\s+".data else []),
                word := st.word ++ [ch], word_commited := false, prev_ch := ch }

/-- `_get_regex_for_atom` on the atom's character list: fold the loop body
over the characters followed by the sentinel NUL (the
`atom.chars().chain("\0".chars())` iterator) and read off `regex`. -/
def atomRegexOf (atom : List Char) : List Char :=
  ((atom ++ [Char.ofNat 0]).foldl atomStep atomInit).regex

/-- `_get_regex_for_atom`: compile one free-text atom to a noise-tolerant
regex pattern source. -/
def _get_regex_for_atom (atom : String) : String :=
  String.mk (atomRegexOf atom.data)

example : _get_regex_for_atom "" = "" := by decide
example : _get_regex_for_atom "  " = "" := by decide
example : _get_regex_for_atom "hello" = "hello" := by decide
example : _get_regex_for_atom "hello world" = "hello\\s+world" := by decide
example : _get_regex_for_atom "  hello world    " = "hello\\s+world" := by decide
example : _get_regex_for_atom "中文" = "中\\s*文" := by decide
example : _get_regex_for_atom "   中 文" = "中\\s+文" := by decide
example : _get_regex_for_atom "中文hello" = "中\\s*文\\s*hello" := by decide
example : _get_regex_for_atom "中文 hello world" = "中\\s*文\\s*hello\\s+world" := by decide
example : _get_regex_for_atom "hello中文" = "hello\\s*中\\s*文" := by decide
example : _get_regex_for_atom "hello   world 中文" = "hello\\s+world\\s*中\\s*文" := by decide
example : _get_regex_for_atom " 中文hello world   世界" = "中\\s*文\\s*hello\\s+world\\s*世\\s*界" := by decide

/-- `get_regex_for_atoms`: OR the compiled atoms together by joining their
pattern sources with `|` (the pattern is modelled by its source text; the
`RegexBuilder` flags multi-line / case-insensitive / non-dotall are fixed
and carried by the engine model). -/
def get_regex_for_atoms (atoms : List String) : List Char :=
  List.intercalate ['|'] (atoms.map (fun a => atomRegexOf a.data))

/-- `QueryGroup`: AND of compiled patterns, each pattern the OR of the atoms
of one inner list. -/
structure QueryGroup where
  patterns : List (List Char)
deriving DecidableEq

/-- `QueryGroup::new`: fails with a value error when the AND-of-OR list is
empty, otherwise compiles one pattern per inner OR-group, in order. -/
def QueryGroup.new (and_of_or_atoms : List (List String)) : Except String QueryGroup :=
  if and_of_or_atoms.isEmpty then
    Except.error "query group must not be empty"
  else
    Except.ok ⟨and_of_or_atoms.map get_regex_for_atoms⟩

/-! ### A matcher for the emitted pattern fragment

The regex engine is an external black box.  The sources emitted by the atom
compiler use only escaped literals, `\s*`, `\s+` and top-level `|`; a
backslash in the output is always followed by a meta character or by the
`s` of a whitespace class, so the lexer below is unambiguous on exactly the
sources this program builds.  `fragIsMatch` is the engine's substring-match
semantics on that fragment (case-insensitive, as the fixed flags demand). -/

/-- Tokens of an emitted pattern source. -/
inductive RTok where
  | lit (c : Char)
  | ws0
  | ws1
  | bar
deriving DecidableEq

/-- Lex an emitted pattern source: `\s*` and `\s+` are whitespace classes,
`\c` is an escaped literal, a bare `|` separates alternatives, anything
else is a literal character. -/
def lexPattern : List Char → List RTok
  | [] => []
  | '\\' :: 's' :: '*' :: rest => RTok.ws0 :: lexPattern rest
  | '\\' :: 's' :: '+' :: rest => RTok.ws1 :: lexPattern rest
  | '\\' :: c :: rest => RTok.lit c :: lexPattern rest
  | '|' :: rest => RTok.bar :: lexPattern rest
  | c :: rest => RTok.lit c :: lexPattern rest

/-- Split a token list at top-level `|` into the alternation's branches. -/
def splitBar : List RTok → List (List RTok)
  | [] => [[]]
  | RTok.bar :: rest => [] :: splitBar rest
  | t :: rest =>
      match splitBar rest with
      | [] => [[t]]
      | alt :: alts => (t :: alt) :: alts

/-- Whitespace as matched by the engine's `\s` class (restricted to the
blanks relevant here). -/
def wsChar (c : Char) : Bool :=
  c = ' ' ∨ c = '\t' ∨ c = '\n' ∨ c = '\r'

/-- Match one alternation branch at the head of `text` (case-insensitive, as
the compiled patterns are). -/
def matchHere : List RTok → List Char → Bool
  | [], _ => true
  | RTok.lit c :: ts, x :: xs => (c.toLower = x.toLower) && matchHere ts xs
  | RTok.lit _ :: _, [] => false
  | RTok.bar :: _, _ => false
  | RTok.ws0 :: ts, [] => matchHere ts []
  | RTok.ws0 :: ts, x :: xs =>
      matchHere ts (x :: xs) || (wsChar x && matchHere (RTok.ws0 :: ts) xs)
  | RTok.ws1 :: _, [] => false
  | RTok.ws1 :: ts, x :: xs => wsChar x && matchHere (RTok.ws0 :: ts) xs
termination_by ts cs => ts.length + cs.length
decreasing_by all_goals simp_wf <;> omega

/-- Substring matching of a token list: some branch matches at some start
position. -/
def matchTok (toks : List RTok) (text : List Char) : Bool :=
  (List.range (text.length + 1)).any (fun i => matchHere toks (text.drop i))

/-- Engine model on the emitted fragment: does the pattern source match
somewhere in `text`? -/
def fragIsMatch (src : List Char) (text : List Char) : Bool :=
  (splitBar (lexPattern src)).any (fun alt => matchTok alt text)

/-! ### UTF-8 byte layer (for `approx_substring`) -/

/-- UTF-8 encoding of one character (1–4 bytes). -/
def charBytes (c : Char) : List Nat :=
  if c.toNat < 0x80 then [c.toNat]
  else if c.toNat < 0x800 then
    [0xc0 + c.toNat / 64, 0x80 + c.toNat % 64]
  else if c.toNat < 0x10000 then
    [0xe0 + c.toNat / 4096, 0x80 + c.toNat / 64 % 64, 0x80 + c.toNat % 64]
  else
    [0xf0 + c.toNat / 262144, 0x80 + c.toNat / 4096 % 64,
     0x80 + c.toNat / 64 % 64, 0x80 + c.toNat % 64]

/-- UTF-8 encoding of a string, as Rust's `str::as_bytes` sees it. -/
def utf8Bytes (cs : List Char) : List Nat :=
  (cs.map charBytes).flatten

/-- Rust's `str::is_char_boundary` on the byte view: true at 0 and at the
total length, false past the end, and at an interior index true iff the
byte there is not a UTF-8 continuation byte. -/
def is_char_boundary (bs : List Nat) (i : Nat) : Bool :=
  if i = 0 then true
  else
    match bs[i]? with
    | none => i == bs.length
    | some b => decide (b < 0x80) || decide (0xc0 ≤ b)

/-- The body of the forward adjustment loop of `approx_substring`, with the
loop's iteration bound `bs.length + 1 - i` passed as structural fuel (the
fuel never runs out while the loop condition holds). -/
def adjustStartFuel (bs : List Nat) : Nat → Nat → Nat
  | i, 0 => i
  | i, fuel + 1 =>
      if i ≤ bs.length then
        (if is_char_boundary bs i then i else adjustStartFuel bs (i + 1) fuel)
      else i

/-- The forward adjustment loop of `approx_substring`: while the start index
is within bounds and not on a character boundary, advance it by one byte. -/
def adjustStart (bs : List Nat) (i : Nat) : Nat :=
  adjustStartFuel bs i (bs.length + 1 - i)

/-- The loop equation of `adjustStart`, fuel eliminated. -/
lemma adjustStart_eq (bs : List Nat) (i : Nat) :
    adjustStart bs i
      = if i ≤ bs.length then
          (if is_char_boundary bs i then i else adjustStart bs (i + 1))
        else i := by
  unfold adjustStart
  rcases le_or_lt i bs.length with hle | hgt
  · have h1 : bs.length + 1 - i = (bs.length - i) + 1 := by omega
    have h2 : bs.length + 1 - (i + 1) = bs.length - i := by omega
    rw [h1, h2, if_pos hle]
    simp only [adjustStartFuel]
    rw [if_pos hle]
  · have h1 : bs.length + 1 - i = 0 := by omega
    rw [h1, if_neg (by omega)]
    simp [adjustStartFuel]

/-- The backward adjustment loop of `approx_substring`: retreat the end
index by one byte until it is on a character boundary (index 0 always is,
so the loop terminates, as the source comment notes). -/
def adjustEnd (bs : List Nat) : Nat → Nat
  | 0 => 0
  | j + 1 => if is_char_boundary bs (j + 1) then j + 1 else adjustEnd bs j

/-- `approx_substring`: adjust both offsets to character boundaries and
return the slice between them, or the empty slice when they cross. -/
def approx_substring (contents : List Nat) (approx_start_byte_index approx_end_byte_index : Nat) :
    List Nat :=
  let start_byte_index := adjustStart contents approx_start_byte_index
  let end_byte_index := adjustEnd contents approx_end_byte_index
  if start_byte_index ≤ end_byte_index then
    (contents.drop start_byte_index).take (end_byte_index - start_byte_index)
  else []

/-! ### Evaluators and scanners

The regex engine is abstract: `is_match` answers whether a pattern source
matches somewhere in the contents, `find` returns the byte range of the
engine's leftmost match, or none.  The file system is a partial map from
path to contents; `none` stands for any read failure (missing file,
permission error, invalid UTF-8). -/

/-- The two engine primitives used by the evaluators (`Regex::is_match` and
`Regex::find`), kept abstract per the spec's black-box treatment. -/
structure RegexEngine where
  is_match : List Char → List Char → Bool
  find : List Char → List Char → Option (Nat × Nat)

/-- `FileMatchResult`: the matched path and the optional context snippet
(given by its bytes). -/
structure FileMatchResult where
  path : String
  context : Option (List Nat)
deriving DecidableEq

/-- `is_match_str`: every pattern of the group matches the contents. -/
def is_match_str (eng : RegexEngine) (query_group : QueryGroup) (contents : List Char) : Bool :=
  query_group.patterns.all (fun pat => eng.is_match pat contents)

/-- `is_match`: read the file; on any read failure yield no result;
otherwise yield a context-free result iff every pattern matches. -/
def is_match (eng : RegexEngine) (query_group : QueryGroup)
    (fs : String → Option (List Char)) (path : String) : Option FileMatchResult :=
  match fs path with
  | some contents =>
      if query_group.patterns.all (fun pat => eng.is_match pat contents) then
        some ⟨path, none⟩
      else none
  | none => none

/-- `is_match_context`: read the file; locate the leftmost match of the
leading pattern (none ⇒ no result), clamp the requested window
`[m.start − a, m.end + b)` to `[0, len]`, extract the snippet with
`approx_substring`, and require every remaining pattern to match. -/
def is_match_context (eng : RegexEngine) (query_group : QueryGroup)
    (fs : String → Option (List Char)) (path : String) (a b : Nat) : Option FileMatchResult :=
  match fs path with
  | some contents =>
      match query_group.patterns with
      | [] => some ⟨path, none⟩
      | pat0 :: rest =>
          match eng.find pat0 contents with
          | none => none
          | some (ms, me) =>
              let bytes := utf8Bytes contents
              let approx_start := if ms < a then 0 else ms - a
              let approx_end := if me + b > bytes.length then bytes.length else me + b
              let context := approx_substring bytes approx_start approx_end
              if rest.all (fun pat => eng.is_match pat contents) then
                some ⟨path, some context⟩
              else none
  | none => none

/-- `search_text`: filter the path list through `is_match`.  Rayon's
`par_iter().filter_map().collect()` is a deterministic, order-preserving
parallel map-filter with no shared mutable state, so both branches denote
the same list; the `if` mirrors the source's two branches. -/
def search_text (eng : RegexEngine) (query_group : QueryGroup)
    (fs : String → Option (List Char)) (textfile_paths : List String) (parallel : Bool) :
    List FileMatchResult :=
  if parallel then
    textfile_paths.filterMap (is_match eng query_group fs)
  else
    textfile_paths.filterMap (is_match eng query_group fs)

/-- `search_text_context`: filter the path list through `is_match_context`. -/
def search_text_context (eng : RegexEngine) (query_group : QueryGroup)
    (fs : String → Option (List Char)) (textfile_paths : List String) (a b : Nat)
    (parallel : Bool) : List FileMatchResult :=
  if parallel then
    textfile_paths.filterMap (fun path => is_match_context eng query_group fs path a b)
  else
    textfile_paths.filterMap (fun path => is_match_context eng query_group fs path a b)

/-! ### Helper lemmas about the atom compiler's loop -/

/-- Run the loop body over a list of characters (no sentinel). -/
def atomRun (st : AtomSt) (cs : List Char) : AtomSt :=
  cs.foldl atomStep st

/-- Run the loop over `cs` and then over the sentinel NUL, reading off the
output. -/
def atomFinish (st : AtomSt) (cs : List Char) : List Char :=
  (atomStep (atomRun st cs) (Char.ofNat 0)).regex

lemma atomRun_append (st : AtomSt) (l1 l2 : List Char) :
    atomRun st (l1 ++ l2) = atomRun (atomRun st l1) l2 := by
  simp [atomRun, List.foldl_append]

lemma atomRun_cons (st : AtomSt) (c : Char) (cs : List Char) :
    atomRun st (c :: cs) = atomRun (atomStep st c) cs := rfl

lemma atomRegexOf_eq_finish (cs : List Char) :
    atomRegexOf cs = atomFinish atomInit cs := by
  simp [atomRegexOf, atomFinish, atomRun, List.foldl_append]

/-- The loop never stores a blank in `prev_ch`. -/
def prevOk (st : AtomSt) : Prop :=
  get_char_type st.prev_ch ≠ CharType.Blank

lemma atomStep_prevOk (st : AtomSt) (ch : Char) (h : prevOk st) :
    prevOk (atomStep st ch) := by
  unfold prevOk at h ⊢
  cases hp : get_char_type st.prev_ch <;> cases hc : get_char_type ch <;>
    simp only [atomStep, hp, hc] <;> (try split) <;> simp_all

lemma atomRun_prevOk (st : AtomSt) (cs : List Char) (h : prevOk st) :
    prevOk (atomRun st cs) := by
  induction cs generalizing st with
  | nil => exact h
  | cons c cs ih => exact ih _ (atomStep_prevOk st c h)

/-- The loop only ever appends to the output `regex`. -/
lemma atomStep_regex_mono (st : AtomSt) (ch : Char) :
    ∃ t, (atomStep st ch).regex = st.regex ++ t := by
  refine ⟨(atomStep st ch).regex.drop st.regex.length, ?_⟩
  cases hp : get_char_type st.prev_ch <;> cases hc : get_char_type ch <;>
    simp only [atomStep, hp, hc] <;> (try split) <;>
    simp [List.append_assoc, List.drop_left, List.drop_length]

lemma atomRun_regex_mono (st : AtomSt) (cs : List Char) :
    ∃ t, (atomRun st cs).regex = st.regex ++ t := by
  induction cs generalizing st with
  | nil => exact ⟨[], by simp [atomRun]⟩
  | cons c cs ih =>
      obtain ⟨t1, h1⟩ := atomStep_regex_mono st c
      obtain ⟨t2, h2⟩ := ih (atomStep st c)
      refine ⟨t1 ++ t2, ?_⟩
      rw [atomRun_cons, h2, h1, List.append_assoc]

/-- Processing a CJK or `Other` character always ends with that character in
the (uncommitted) word buffer and recorded as `prev_ch`. -/
lemma atomStep_nonblank (st : AtomSt) (c : Char) (hst : prevOk st)
    (hc : get_char_type c = CharType.Hans ∨ get_char_type c = CharType.Other) :
    (atomStep st c).prev_ch = c ∧ (atomStep st c).word_commited = false
      ∧ ∃ w, (atomStep st c).word = w ++ [c] := by
  unfold prevOk at hst
  rcases hc with hc | hc <;>
    cases hp : get_char_type st.prev_ch <;>
      first
        | exact absurd hp hst
        | (simp only [atomStep, hp, hc]; (try split) <;> simp)

lemma atomRun_last_nonblank (st : AtomSt) (cs : List Char) (c : Char)
    (hst : prevOk st)
    (hc : get_char_type c = CharType.Hans ∨ get_char_type c = CharType.Other) :
    (atomRun st (cs ++ [c])).prev_ch = c
      ∧ (atomRun st (cs ++ [c])).word_commited = false
      ∧ ∃ w, (atomRun st (cs ++ [c])).word = w ++ [c] := by
  have h := atomStep_nonblank (atomRun st cs) c (atomRun_prevOk st cs hst) hc
  simpa [atomRun_append, atomRun, atomRun_cons] using h

/-- A blank after an uncommitted CJK/`Other` word commits the word and
otherwise leaves the state alone. -/
lemma atomStep_blank_uncommitted (st : AtomSt) (b : Char)
    (hb : get_char_type b = CharType.Blank)
    (hp : get_char_type st.prev_ch = CharType.Hans
        ∨ get_char_type st.prev_ch = CharType.Other)
    (hcom : st.word_commited = false) :
    atomStep st b = ⟨st.regex ++ regex_escape st.word, [], st.prev_ch, true⟩ := by
  rcases hp with hp | hp <;> simp [atomStep, hp, hb, hcom]

/-- A blank after a committed word is a no-op. -/
lemma atomStep_blank_committed (st : AtomSt) (b : Char)
    (hb : get_char_type b = CharType.Blank)
    (hp : get_char_type st.prev_ch = CharType.Hans
        ∨ get_char_type st.prev_ch = CharType.Other)
    (hcom : st.word_commited = true) :
    atomStep st b = st := by
  rcases hp with hp | hp <;> simp [atomStep, hp, hb, hcom]

lemma atomRun_blanks_committed (st : AtomSt) (bs : List Char)
    (hb : ∀ b ∈ bs, get_char_type b = CharType.Blank)
    (hp : get_char_type st.prev_ch = CharType.Hans
        ∨ get_char_type st.prev_ch = CharType.Other)
    (hcom : st.word_commited = true) :
    atomRun st bs = st := by
  induction bs with
  | nil => rfl
  | cons b bs ih =>
      rw [atomRun_cons, atomStep_blank_committed st b (hb b (by simp)) hp hcom]
      exact ih (fun x hx => hb x (by simp [hx]))

lemma atomRun_blanks_uncommitted (st : AtomSt) (bs : List Char)
    (hbs : bs ≠ [])
    (hb : ∀ b ∈ bs, get_char_type b = CharType.Blank)
    (hp : get_char_type st.prev_ch = CharType.Hans
        ∨ get_char_type st.prev_ch = CharType.Other)
    (hcom : st.word_commited = false) :
    atomRun st bs = ⟨st.regex ++ regex_escape st.word, [], st.prev_ch, true⟩ := by
  cases bs with
  | nil => exact absurd rfl hbs
  | cons b bs =>
      rw [atomRun_cons, atomStep_blank_uncommitted st b (hb b (by simp)) hp hcom]
      exact atomRun_blanks_committed _ bs (fun x hx => hb x (by simp [hx])) hp rfl

/-- At a script transition with an uncommitted word the loop commits the
word, emits `\s*`, and starts the next word with the new character. -/
lemma atomStep_mixed (st : AtomSt) (c d : Char)
    (hprev : st.prev_ch = c) (hcom : st.word_commited = false)
    (hcd : (get_char_type c = CharType.Hans ∧ get_char_type d = CharType.Other)
         ∨ (get_char_type c = CharType.Other ∧ get_char_type d = CharType.Hans)) :
    atomStep st d = ⟨st.regex ++ regex_escape st.word ++ "\\s*".data, [d], d, false⟩ := by
  rcases hcd with ⟨h1, h2⟩ | ⟨h1, h2⟩ <;>
    simp [atomStep, hprev, h1, h2, hcom]

/-- At a script transition with the word already committed (a blank
intervened) the loop emits `\s*` only. -/
lemma atomStep_mixed_committed (st : AtomSt) (c d : Char)
    (hprev : st.prev_ch = c) (hword : st.word = []) (hcom : st.word_commited = true)
    (hcd : (get_char_type c = CharType.Hans ∧ get_char_type d = CharType.Other)
         ∨ (get_char_type c = CharType.Other ∧ get_char_type d = CharType.Hans)) :
    atomStep st d = ⟨st.regex ++ "\\s*".data, [d], d, false⟩ := by
  rcases hcd with ⟨h1, h2⟩ | ⟨h1, h2⟩ <;>
    simp [atomStep, hprev, h1, h2, hcom, hword]

/-! ### The claimed output shape for CJK/blank-only atoms (claim C2) -/

lemma get_char_type_nul : get_char_type (Char.ofNat 0) = CharType.Term := by
  decide

/-- Continuation of `cjkSpec` after the first CJK character: `gap` records
whether at least one blank has been seen since the previous CJK character;
the next CJK character is preceded by `\s+` when it has and by `\s*` when
it has not. -/
def cjkSpecRest (gap : Bool) : List Char → List Char
  | [] => []
  | c :: rest =>
      if get_char_type c = CharType.Blank then cjkSpecRest true rest
      else (if gap then "\\s+".data else "\\s*".data)
             ++ regex_escape [c] ++ cjkSpecRest false rest

/-- The output shape claim C2 describes for an atom of CJK and blank
characters only: leading blanks contribute nothing, each CJK character is an
escaped literal, and consecutive CJK characters are joined by `\s*` when
adjacent and by `\s+` when separated by at least one blank. -/
def cjkSpec : List Char → List Char
  | [] => []
  | c :: rest =>
      if get_char_type c = CharType.Blank then cjkSpec rest
      else regex_escape [c] ++ cjkSpecRest false rest

lemma atomFinish_cons (st : AtomSt) (d : Char) (cs : List Char) :
    atomFinish st (d :: cs) = atomFinish (atomStep st d) cs := rfl

/-- Running the loop on a CJK/blank-only suffix from each of its three
reachable state shapes produces the `cjkSpec` continuation. -/
lemma cjkRun : ∀ cs : List Char,
    (∀ c ∈ cs, get_char_type c = CharType.Hans ∨ get_char_type c = CharType.Blank) →
    (∀ R : List Char, atomFinish ⟨R, [], Char.ofNat 0, false⟩ cs = R ++ cjkSpec cs)
    ∧ (∀ (R : List Char) (c : Char), get_char_type c = CharType.Hans →
        atomFinish ⟨R, [c], c, false⟩ cs = R ++ regex_escape [c] ++ cjkSpecRest false cs)
    ∧ (∀ (R : List Char) (c : Char), get_char_type c = CharType.Hans →
        atomFinish ⟨R, [], c, true⟩ cs = R ++ cjkSpecRest true cs) := by
  intro cs
  induction cs with
  | nil =>
      intro _
      refine ⟨fun R => ?_, fun R c hc => ?_, fun R c hc => ?_⟩
      · simp [atomFinish, atomRun, atomStep, get_char_type_nul, cjkSpec]
      · simp [atomFinish, atomRun, atomStep, get_char_type_nul, hc, cjkSpecRest,
              List.append_assoc]
      · simp [atomFinish, atomRun, atomStep, get_char_type_nul, hc, cjkSpecRest]
  | cons d cs ih =>
      intro hgood
      have hd := hgood d (List.mem_cons_self d cs)
      have ih' := ih (fun x hx => hgood x (List.mem_cons_of_mem d hx))
      refine ⟨fun R => ?_, fun R c hc => ?_, fun R c hc => ?_⟩
      · rcases hd with hd | hd
        · have step : atomStep ⟨R, [], Char.ofNat 0, false⟩ d = ⟨R, [d], d, false⟩ := by
            simp [atomStep, get_char_type_nul, hd]
          rw [atomFinish_cons, step, ih'.2.1 R d hd]
          simp [cjkSpec, hd, List.append_assoc]
        · have step : atomStep ⟨R, [], Char.ofNat 0, false⟩ d
              = ⟨R, [], Char.ofNat 0, false⟩ := by
            simp [atomStep, get_char_type_nul, hd]
          rw [atomFinish_cons, step, ih'.1 R]
          simp [cjkSpec, hd]
      · rcases hd with hd | hd
        · have step : atomStep ⟨R, [c], c, false⟩ d
              = ⟨R ++ regex_escape [c] ++ "\\s*".data, [d], d, false⟩ := by
            simp [atomStep, hc, hd]
          rw [atomFinish_cons, step, ih'.2.1 _ d hd]
          simp [cjkSpecRest, hd, List.append_assoc]
        · have step : atomStep ⟨R, [c], c, false⟩ d
              = ⟨R ++ regex_escape [c], [], c, true⟩ := by
            simp [atomStep, hc, hd]
          rw [atomFinish_cons, step, ih'.2.2 _ c hc]
          simp [cjkSpecRest, hd, List.append_assoc]
      · rcases hd with hd | hd
        · have step : atomStep ⟨R, [], c, true⟩ d
              = ⟨R ++ "\\s+".data, [d], d, false⟩ := by
            simp [atomStep, hc, hd]
          rw [atomFinish_cons, step, ih'.2.1 _ d hd]
          simp [cjkSpecRest, hd, List.append_assoc]
        · have step : atomStep ⟨R, [], c, true⟩ d = ⟨R, [], c, true⟩ := by
            simp [atomStep, hc, hd]
          rw [atomFinish_cons, step, ih'.2.2 R c hc]
          simp [cjkSpecRest, hd]

/-- C2: for every atom consisting only of CJK characters (U+4E00–U+9FA5,
U+3040–U+30FF) and blank characters, the atom compiler's output is exactly
the `cjkSpec` shape: between each pair of consecutive CJK characters it
emits `\s*` when no blank lies between them in the atom and `\s+` when at
least one blank does. -/
theorem claim_C2_cjk_atom_separators (cs : List Char)
    (h : ∀ c ∈ cs, get_char_type c = CharType.Hans ∨ get_char_type c = CharType.Blank) :
    atomRegexOf cs = cjkSpec cs := by
  have h0 := (cjkRun cs h).1 []
  rw [atomRegexOf_eq_finish]
  exact h0

/-- Witness for C2 at the atom `"中 文文"`: the blank pair is joined by
`\s+`, the adjacent pair by `\s*`. -/
theorem claim_C2_witness :
    (∀ c ∈ "中 文文".data,
        get_char_type c = CharType.Hans ∨ get_char_type c = CharType.Blank)
    ∧ atomRegexOf "中 文文".data = cjkSpec "中 文文".data
    ∧ cjkSpec "中 文文".data = "中\\s+文\\s*文".data :=
  ⟨by decide, claim_C2_cjk_atom_separators "中 文文".data (by decide), by decide⟩

lemma atomInit_prevOk : prevOk atomInit := by
  simp [prevOk, atomInit, get_char_type_nul]

/-- C8: at every position of an atom where a CJK character `c` and a
non-CJK non-blank character `d` are immediately adjacent (either order),
the compiler closes the literal fragment ending in `c` (escaped), emits
`\s*` — never `\s+` — and starts the next literal fragment with `d`;
everything after is some continuation `t`. -/
theorem claim_C8_script_transition_adjacent (pre suf : List Char) (c d : Char)
    (hcd : (get_char_type c = CharType.Hans ∧ get_char_type d = CharType.Other)
         ∨ (get_char_type c = CharType.Other ∧ get_char_type d = CharType.Hans)) :
    ∃ w t,
      (atomRun atomInit (pre ++ [c])).word = w ++ [c]
      ∧ (atomStep (atomRun atomInit (pre ++ [c])) d).word = [d]
      ∧ atomRegexOf (pre ++ c :: d :: suf)
          = (atomRun atomInit (pre ++ [c])).regex
              ++ regex_escape ((atomRun atomInit (pre ++ [c])).word)
              ++ "\\s*".data ++ t := by
  have hcC : get_char_type c = CharType.Hans ∨ get_char_type c = CharType.Other := by
    rcases hcd with ⟨h1, _⟩ | ⟨h1, _⟩
    · exact Or.inl h1
    · exact Or.inr h1
  obtain ⟨hprev, hcom, w, hw⟩ := atomRun_last_nonblank atomInit pre c atomInit_prevOk hcC
  have hstep : atomStep (atomRun atomInit (pre ++ [c])) d
      = ⟨(atomRun atomInit (pre ++ [c])).regex
            ++ regex_escape ((atomRun atomInit (pre ++ [c])).word) ++ "\\s*".data,
          [d], d, false⟩ :=
    atomStep_mixed _ c d hprev hcom hcd
  have hdecomp : atomRegexOf (pre ++ c :: d :: suf)
      = (atomRun (atomStep (atomRun atomInit (pre ++ [c])) d)
          (suf ++ [Char.ofNat 0])).regex := by
    have hlist : (pre ++ c :: d :: suf) ++ [Char.ofNat 0]
        = (pre ++ [c]) ++ (d :: (suf ++ [Char.ofNat 0])) := by simp
    simp only [atomRegexOf]
    rw [hlist, List.foldl_append]
    rfl
  obtain ⟨t, ht⟩ :=
    atomRun_regex_mono (atomStep (atomRun atomInit (pre ++ [c])) d) (suf ++ [Char.ofNat 0])
  refine ⟨w, t, hw, by rw [hstep], ?_⟩
  rw [hdecomp, ht, hstep]

/-- Witness for C8 at the atom `"中文hello"` (the transition `文` → `h`). -/
theorem claim_C8_witness :
    ((get_char_type '文' = CharType.Hans ∧ get_char_type 'h' = CharType.Other)
      ∨ (get_char_type '文' = CharType.Other ∧ get_char_type 'h' = CharType.Hans))
    ∧ ∃ w t,
        (atomRun atomInit ("中".data ++ ['文'])).word = w ++ ['文']
        ∧ (atomStep (atomRun atomInit ("中".data ++ ['文'])) 'h').word = ['h']
        ∧ atomRegexOf ("中".data ++ '文' :: 'h' :: "ello".data)
            = (atomRun atomInit ("中".data ++ ['文'])).regex
                ++ regex_escape ((atomRun atomInit ("中".data ++ ['文'])).word)
                ++ "\\s*".data ++ t :=
  ⟨by decide,
    claim_C8_script_transition_adjacent "中".data "ello".data '文' 'h' (by decide)⟩

/-- C9: when a CJK character `c` and a non-CJK non-blank character `d` are
separated by one or more blanks, the compiler still emits `\s*` (not
`\s+`) between the fragment ending in `c` and the fragment starting with
`d`. -/
theorem claim_C9_script_transition_gap (pre bs suf : List Char) (c d : Char)
    (hbs : bs ≠ []) (hb : ∀ b ∈ bs, get_char_type b = CharType.Blank)
    (hcd : (get_char_type c = CharType.Hans ∧ get_char_type d = CharType.Other)
         ∨ (get_char_type c = CharType.Other ∧ get_char_type d = CharType.Hans)) :
    ∃ w t,
      (atomRun atomInit (pre ++ [c])).word = w ++ [c]
      ∧ (atomRun atomInit ((pre ++ [c]) ++ bs ++ [d])).word = [d]
      ∧ atomRegexOf ((pre ++ [c]) ++ bs ++ (d :: suf))
          = (atomRun atomInit (pre ++ [c])).regex
              ++ regex_escape ((atomRun atomInit (pre ++ [c])).word)
              ++ "\\s*".data ++ t := by
  have hcC : get_char_type c = CharType.Hans ∨ get_char_type c = CharType.Other := by
    rcases hcd with ⟨h1, _⟩ | ⟨h1, _⟩
    · exact Or.inl h1
    · exact Or.inr h1
  obtain ⟨hprev, hcom, w, hw⟩ := atomRun_last_nonblank atomInit pre c atomInit_prevOk hcC
  have hB : atomRun (atomRun atomInit (pre ++ [c])) bs
      = ⟨(atomRun atomInit (pre ++ [c])).regex
            ++ regex_escape ((atomRun atomInit (pre ++ [c])).word),
          [], (atomRun atomInit (pre ++ [c])).prev_ch, true⟩ := by
    refine atomRun_blanks_uncommitted _ bs hbs hb ?_ hcom
    rw [hprev]
    exact hcC
  have hstep : atomStep (atomRun (atomRun atomInit (pre ++ [c])) bs) d
      = ⟨(atomRun atomInit (pre ++ [c])).regex
            ++ regex_escape ((atomRun atomInit (pre ++ [c])).word) ++ "\\s*".data,
          [d], d, false⟩ := by
    rw [hB]
    rw [atomStep_mixed_committed _ c d (by simpa using hprev) rfl rfl hcd]
  have hword : atomRun atomInit ((pre ++ [c]) ++ bs ++ [d])
      = atomStep (atomRun (atomRun atomInit (pre ++ [c])) bs) d := by
    rw [atomRun_append, atomRun_append]
    rfl
  have hdecomp : atomRegexOf ((pre ++ [c]) ++ bs ++ (d :: suf))
      = (atomRun (atomStep (atomRun (atomRun atomInit (pre ++ [c])) bs) d)
          (suf ++ [Char.ofNat 0])).regex := by
    have hlist : ((pre ++ [c]) ++ bs ++ (d :: suf)) ++ [Char.ofNat 0]
        = (pre ++ [c]) ++ (bs ++ (d :: (suf ++ [Char.ofNat 0]))) := by simp
    simp only [atomRegexOf]
    rw [hlist, List.foldl_append, List.foldl_append]
    rfl
  obtain ⟨t, ht⟩ :=
    atomRun_regex_mono (atomStep (atomRun (atomRun atomInit (pre ++ [c])) bs) d)
      (suf ++ [Char.ofNat 0])
  refine ⟨w, t, hw, ?_, ?_⟩
  · rw [hword, hstep]
  · rw [hdecomp, ht, hstep]

/-- Witness for C9 at the atom `"中文 hello"`, the spec's own example: the
compiler emits `\s*` across the blank at the script transition. -/
theorem claim_C9_witness :
    ([' '] ≠ ([] : List Char))
    ∧ (∀ b ∈ [' '], get_char_type b = CharType.Blank)
    ∧ ∃ w t,
        (atomRun atomInit ("中".data ++ ['文'])).word = w ++ ['文']
        ∧ (atomRun atomInit (("中".data ++ ['文']) ++ [' '] ++ ['h'])).word = ['h']
        ∧ atomRegexOf (("中".data ++ ['文']) ++ [' '] ++ ('h' :: "ello".data))
            = (atomRun atomInit ("中".data ++ ['文'])).regex
                ++ regex_escape ((atomRun atomInit ("中".data ++ ['文'])).word)
                ++ "\\s*".data ++ t :=
  ⟨by decide, by decide,
    claim_C9_script_transition_gap "中".data [' '] "ello".data '文' 'h'
      (by decide) (by decide) (by decide)⟩

/-! ### Blank-only atoms, QueryGroup construction, and the scanners -/

lemma atomStep_term_blank (st : AtomSt) (b : Char)
    (hp : get_char_type st.prev_ch = CharType.Term)
    (hb : get_char_type b = CharType.Blank) :
    atomStep st b = st := by
  simp [atomStep, hp, hb]

lemma atomRun_all_blanks_init (cs : List Char)
    (h : ∀ c ∈ cs, get_char_type c = CharType.Blank) :
    atomRun atomInit cs = atomInit := by
  induction cs with
  | nil => rfl
  | cons b bs ih =>
      rw [atomRun_cons, atomStep_term_blank atomInit b get_char_type_nul (h b (by simp))]
      exact ih (fun x hx => h x (by simp [hx]))

/-- The empty pattern source matches every text in the engine model: it has
one empty alternative, which matches at position 0 of any text. -/
lemma fragIsMatch_nil (t : List Char) : fragIsMatch [] t = true := by
  simp only [fragIsMatch, lexPattern, splitBar, List.any_eq_true]
  refine ⟨[], by simp, ?_⟩
  simp only [matchTok, List.any_eq_true]
  exact ⟨0, by simp, by simp [matchHere]⟩

/-- C7: the atom compiler is a total function (it is defined for every
input), and on atoms consisting solely of blank characters — the empty atom
included — it produces the empty pattern source, which matches every text
in the engine model. -/
theorem claim_C7_blank_atoms (cs : List Char)
    (h : ∀ c ∈ cs, get_char_type c = CharType.Blank) :
    atomRegexOf cs = [] ∧ ∀ t, fragIsMatch (atomRegexOf cs) t = true := by
  have hout : atomRegexOf cs = [] := by
    rw [atomRegexOf_eq_finish]
    unfold atomFinish
    rw [atomRun_all_blanks_init cs h]
    simp [atomStep, atomInit, get_char_type_nul]
  exact ⟨hout, fun t => by rw [hout]; exact fragIsMatch_nil t⟩

/-- Witness for C7 at the blank-only atom `"  "`. -/
theorem claim_C7_witness :
    (∀ c ∈ "  ".data, get_char_type c = CharType.Blank)
    ∧ atomRegexOf "  ".data = []
    ∧ fragIsMatch (atomRegexOf "  ".data) "any text at all".data = true :=
  ⟨by decide, (claim_C7_blank_atoms "  ".data (by decide)).1,
    (claim_C7_blank_atoms "  ".data (by decide)).2 "any text at all".data⟩

/-- C4: `QueryGroup::new` returns a configuration error iff the AND-of-OR
list is empty; otherwise it succeeds with exactly one compiled pattern per
outer element, in the same order. -/
theorem claim_C4_querygroup_new (l : List (List String)) :
    (l = [] → QueryGroup.new l = Except.error "query group must not be empty")
    ∧ (l ≠ [] → QueryGroup.new l = Except.ok ⟨l.map get_regex_for_atoms⟩) := by
  constructor
  · rintro rfl
    rfl
  · intro h
    simp [QueryGroup.new, h]

/-- Witness for C4: the empty list errors; the spec's two-group example
succeeds with two patterns, in order. -/
theorem claim_C4_witness :
    QueryGroup.new ([] : List (List String))
        = Except.error "query group must not be empty"
    ∧ QueryGroup.new [["bar"], ["baz", "xxxx哈哈"]]
        = Except.ok ⟨[["bar"], ["baz", "xxxx哈哈"]].map get_regex_for_atoms⟩ :=
  ⟨(claim_C4_querygroup_new []).1 rfl,
    (claim_C4_querygroup_new [["bar"], ["baz", "xxxx哈哈"]]).2 (by decide)⟩

/-- C10: a non-empty AND-of-OR list with an empty inner OR-group constructs
successfully, and the pattern compiled at that position is the empty
source, which matches every text — that AND position imposes no
constraint. -/
theorem claim_C10_empty_inner_group (l : List (List String)) (i : Nat)
    (hne : l ≠ []) (hi : i < l.length) (hemp : l.get ⟨i, hi⟩ = []) :
    ∃ (g : QueryGroup) (hg : i < g.patterns.length),
      QueryGroup.new l = Except.ok g
      ∧ g.patterns.get ⟨i, hg⟩ = []
      ∧ ∀ t, fragIsMatch (g.patterns.get ⟨i, hg⟩) t = true := by
  have hg : i < (l.map get_regex_for_atoms).length := by simpa using hi
  have hget : (l.map get_regex_for_atoms).get ⟨i, hg⟩ = [] := by
    rw [List.get_map, hemp]
    rfl
  refine ⟨⟨l.map get_regex_for_atoms⟩, hg, ?_, hget, ?_⟩
  · simp [QueryGroup.new, hne]
  · intro t
    rw [hget]
    exact fragIsMatch_nil t

/-- Witness for C10 at `[["a"], []]`, the empty group at index 1. -/
theorem claim_C10_witness :
    ([["a"], []] : List (List String)) ≠ []
    ∧ ∃ (g : QueryGroup) (hg : 1 < g.patterns.length),
        QueryGroup.new [["a"], []] = Except.ok g
        ∧ g.patterns.get ⟨1, hg⟩ = []
        ∧ ∀ t, fragIsMatch (g.patterns.get ⟨1, hg⟩) t = true :=
  ⟨by decide,
    claim_C10_empty_inner_group [["a"], []] 1 (by decide) (by decide) (by decide)⟩

/-- C5: the scan functions return plain lists — no error can be surfaced —
and a path whose read fails ( `fs p = none`, standing for missing,
unreadable, or invalid-UTF-8 files) yields no per-file result: removing it
from the input list leaves both scans' output unchanged. -/
theorem claim_C5_read_failure_silent (eng : RegexEngine) (query_group : QueryGroup)
    (fs : String → Option (List Char)) (p : String) (l1 l2 : List String)
    (a b : Nat) (parallel : Bool) (hfail : fs p = none) :
    is_match eng query_group fs p = none
    ∧ is_match_context eng query_group fs p a b = none
    ∧ search_text eng query_group fs (l1 ++ p :: l2) parallel
        = search_text eng query_group fs (l1 ++ l2) parallel
    ∧ search_text_context eng query_group fs (l1 ++ p :: l2) a b parallel
        = search_text_context eng query_group fs (l1 ++ l2) a b parallel := by
  have h1 : is_match eng query_group fs p = none := by
    simp [is_match, hfail]
  have h2 : is_match_context eng query_group fs p a b = none := by
    simp [is_match_context, hfail]
  refine ⟨h1, h2, ?_, ?_⟩
  · simp [search_text, List.filterMap_append, List.filterMap_cons, h1]
  · simp [search_text_context, List.filterMap_append, List.filterMap_cons, h2]

/-- Witness for C5: with a file system where every read fails, the failing
path `"g"` contributes nothing to the scan. -/
theorem claim_C5_witness :
    ((fun _ : String => (none : Option (List Char))) "g" = none)
    ∧ search_text ⟨fun _ _ => true, fun _ _ => none⟩ ⟨[['a']]⟩ (fun _ => none)
        (["f"] ++ "g" :: ["h"]) true
      = search_text ⟨fun _ _ => true, fun _ _ => none⟩ ⟨[['a']]⟩ (fun _ => none)
        (["f"] ++ ["h"]) true :=
  ⟨rfl, (claim_C5_read_failure_silent _ _ _ "g" ["f"] ["h"] 0 0 true rfl).2.2.1⟩

lemma is_match_path_eq (eng : RegexEngine) (query_group : QueryGroup)
    (fs : String → Option (List Char)) (p : String) (r : FileMatchResult)
    (h : is_match eng query_group fs p = some r) : r.path = p := by
  cases hf : fs p with
  | none => simp [is_match, hf] at h
  | some contents =>
      simp only [is_match, hf] at h
      split at h
      · rw [← Option.some.inj h]
      · exact absurd h (by simp)

lemma is_match_context_path_eq (eng : RegexEngine) (query_group : QueryGroup)
    (fs : String → Option (List Char)) (p : String) (a b : Nat) (r : FileMatchResult)
    (h : is_match_context eng query_group fs p a b = some r) : r.path = p := by
  cases hf : fs p with
  | none => simp [is_match_context, hf] at h
  | some contents =>
      cases hp : query_group.patterns with
      | nil =>
          simp only [is_match_context, hf, hp] at h
          rw [← Option.some.inj h]
      | cons pat0 rest =>
          cases hm : eng.find pat0 contents with
          | none => simp [is_match_context, hf, hp, hm] at h
          | some m =>
              obtain ⟨ms, me⟩ := m
              simp only [is_match_context, hf, hp, hm] at h
              split at h
              · rw [← Option.some.inj h]
              · exact absurd h (by simp)

lemma filterMap_path_sublist (f : String → Option FileMatchResult)
    (hf : ∀ p r, f p = some r → r.path = p) (l : List String) :
    List.Sublist ((l.filterMap f).map FileMatchResult.path) l := by
  induction l with
  | nil => simp
  | cons p l ih =>
      cases hfp : f p with
      | none =>
          rw [List.filterMap_cons_none hfp]
          exact List.Sublist.cons p ih
      | some r =>
          rw [List.filterMap_cons_some hfp, List.map_cons, hf p r hfp]
          exact List.Sublist.cons₂ p ih

/-- C6: the scan with `parallel = true` returns the very same result list
as with `parallel = false` (hence the same set of paths), for both the
plain and the context-aware scans; and the sequential results appear in
input-list order (their paths form a sublist of the input paths). -/
theorem claim_C6_parallel_equals_sequential (eng : RegexEngine) (query_group : QueryGroup)
    (fs : String → Option (List Char)) (paths : List String) (a b : Nat) :
    search_text eng query_group fs paths true = search_text eng query_group fs paths false
    ∧ search_text_context eng query_group fs paths a b true
        = search_text_context eng query_group fs paths a b false
    ∧ List.Sublist
        ((search_text eng query_group fs paths false).map FileMatchResult.path) paths
    ∧ List.Sublist
        ((search_text_context eng query_group fs paths a b false).map
          FileMatchResult.path) paths := by
  refine ⟨rfl, rfl, ?_, ?_⟩
  · exact filterMap_path_sublist _ (fun p r h => is_match_path_eq eng query_group fs p r h)
      paths
  · exact filterMap_path_sublist _
      (fun p r h => is_match_context_path_eq eng query_group fs p a b r h) paths

/-! ### Claim C1: context-aware per-file evaluation -/

/-- C1: on a readable file and a non-empty pattern sequence,
`is_match_context` returns none when the leading pattern has no match;
given the engine's leftmost match at byte range `[ms, me)` it computes the
window `[ms − a, me + b)` clamped to `[0, len]` and extracts the snippet
with `approx_substring`; it still returns none when any pattern at
index > 0 fails to match, and returns the result carrying the snippet
exactly when the leading pattern matches and every remaining pattern also
matches. -/
theorem claim_C1_context_evaluation (eng : RegexEngine) (query_group : QueryGroup)
    (fs : String → Option (List Char)) (path : String) (a b : Nat)
    (contents : List Char) (pat0 : List Char) (rest : List (List Char))
    (hread : fs path = some contents)
    (hpats : query_group.patterns = pat0 :: rest) :
    (eng.find pat0 contents = none →
        is_match_context eng query_group fs path a b = none)
    ∧ (∀ ms me, eng.find pat0 contents = some (ms, me) →
        ((¬ (rest.all (fun pat => eng.is_match pat contents)) = true) →
            is_match_context eng query_group fs path a b = none)
        ∧ ((rest.all (fun pat => eng.is_match pat contents)) = true →
            is_match_context eng query_group fs path a b
              = some ⟨path,
                  some (approx_substring (utf8Bytes contents) (ms - a)
                    (min (me + b) (utf8Bytes contents).length))⟩)) := by
  constructor
  · intro hm
    simp [is_match_context, hread, hpats, hm]
  · intro ms me hm
    have hstart : (if ms < a then 0 else ms - a) = ms - a := by
      split <;> omega
    have hend : (if me + b > (utf8Bytes contents).length
          then (utf8Bytes contents).length else me + b)
        = min (me + b) (utf8Bytes contents).length := by
      rw [Nat.min_def]
      split <;> split <;> omega
    constructor
    · intro hall
      simp [is_match_context, hread, hpats, hm, hall]
    · intro hall
      simp only [is_match_context, hread, hpats, hm, hall, if_true]
      rw [hstart, hend]

/-- Witness for C1: a two-pattern group against a three-byte file, the
engine reporting the leading match at bytes `[1, 2)` and every other
pattern matching. -/
theorem claim_C1_witness :
    is_match_context ⟨fun _ _ => true, fun _ _ => some (1, 2)⟩ ⟨[['a'], ['b']]⟩
        (fun _ => some ['x', 'y', 'z']) "f" 1 1
      = some ⟨"f", some (approx_substring (utf8Bytes ['x', 'y', 'z']) (1 - 1)
              (min (2 + 1) (utf8Bytes ['x', 'y', 'z']).length))⟩ :=
  ((claim_C1_context_evaluation ⟨fun _ _ => true, fun _ _ => some (1, 2)⟩ ⟨[['a'], ['b']]⟩
      (fun _ => some ['x', 'y', 'z']) "f" 1 1 ['x', 'y', 'z'] ['a'] [['b']]
      rfl rfl).2 1 2 rfl).2 rfl

/-! ### Claim C3: UTF-8 safety of `approx_substring` -/

/-- Every character encodes to a non-empty byte list whose first byte is
not a continuation byte and whose remaining bytes all are. -/
lemma charBytes_shape (c : Char) :
    ∃ b0 bt, charBytes c = b0 :: bt
      ∧ (b0 < 0x80 ∨ 0xc0 ≤ b0)
      ∧ ∀ b ∈ bt, 0x80 ≤ b ∧ b < 0xc0 := by
  unfold charBytes
  split_ifs with h1 h2 h3
  · exact ⟨_, _, rfl, Or.inl h1, by simp⟩
  · refine ⟨_, _, rfl, Or.inr (by omega), ?_⟩
    intro b hb
    simp only [List.mem_singleton] at hb
    omega
  · refine ⟨_, _, rfl, Or.inr (by omega), ?_⟩
    intro b hb
    simp only [List.mem_cons, List.mem_singleton, List.not_mem_nil, or_false] at hb
    rcases hb with hb | hb <;> omega
  · refine ⟨_, _, rfl, Or.inr (by omega), ?_⟩
    intro b hb
    simp only [List.mem_cons, List.mem_singleton, List.not_mem_nil, or_false] at hb
    rcases hb with hb | hb | hb <;> omega

lemma charBytes_length_pos (c : Char) : 0 < (charBytes c).length := by
  obtain ⟨b0, bt, h, -, -⟩ := charBytes_shape c
  simp [h]

lemma utf8Bytes_append (xs ys : List Char) :
    utf8Bytes (xs ++ ys) = utf8Bytes xs ++ utf8Bytes ys := by
  simp [utf8Bytes]

lemma utf8Bytes_cons (c : Char) (xs : List Char) :
    utf8Bytes (c :: xs) = charBytes c ++ utf8Bytes xs := by
  simp [utf8Bytes]

lemma is_char_boundary_zero (bs : List Nat) : is_char_boundary bs 0 = true := by
  simp [is_char_boundary]

lemma is_char_boundary_of_none (bs : List Nat) (i : Nat) (hi : i ≠ 0)
    (hg : bs[i]? = none) :
    is_char_boundary bs i = (i == bs.length) := by
  unfold is_char_boundary
  rw [if_neg hi, hg]

lemma is_char_boundary_of_some (bs : List Nat) (i b : Nat) (hi : i ≠ 0)
    (hg : bs[i]? = some b) :
    is_char_boundary bs i = (decide (b < 0x80) || decide (0xc0 ≤ b)) := by
  unfold is_char_boundary
  rw [if_neg hi, hg]

lemma is_char_boundary_length (bs : List Nat) :
    is_char_boundary bs bs.length = true := by
  by_cases hi : bs.length = 0
  · rw [hi]
    exact is_char_boundary_zero bs
  · rw [is_char_boundary_of_none bs bs.length hi
        (List.getElem?_eq_none (Nat.le_refl bs.length))]
    simp

lemma boundary_le_length (bs : List Nat) (i : Nat)
    (h : is_char_boundary bs i = true) : i ≤ bs.length := by
  by_cases hi : i = 0
  · omega
  · cases hg : bs[i]? with
    | none =>
        rw [is_char_boundary_of_none bs i hi hg] at h
        have := beq_iff_eq.mp h
        omega
    | some b =>
        obtain ⟨hlt, -⟩ := List.getElem?_eq_some.mp hg
        omega

lemma boundary_cont_false (bs : List Nat) (i b : Nat)
    (hi : i ≠ 0) (hg : bs[i]? = some b) (hb1 : 0x80 ≤ b) (hb2 : b < 0xc0) :
    is_char_boundary bs i = false := by
  rw [is_char_boundary_of_some bs i b hi hg]
  simp only [Bool.or_eq_false_iff, decide_eq_false_iff_not]
  omega

lemma boundary_append_right (l1 l2 : List Nat) (j : Nat)
    (h : is_char_boundary (l1 ++ l2) (l1.length + j) = true) :
    is_char_boundary l2 j = true := by
  by_cases hj : j = 0
  · rw [hj]
    exact is_char_boundary_zero l2
  · have hg : (l1 ++ l2)[l1.length + j]? = l2[j]? := by
      rw [List.getElem?_append_right (by omega)]
      congr 1
      omega
    cases hgl : l2[j]? with
    | none =>
        rw [is_char_boundary_of_none _ _ (by omega) (by rw [hg, hgl])] at h
        rw [is_char_boundary_of_none _ _ hj hgl]
        have h' := beq_iff_eq.mp h
        simp only [List.length_append] at h'
        have hj2 : j = l2.length := by omega
        simp [hj2]
    | some b =>
        rw [is_char_boundary_of_some _ _ b (by omega) (by rw [hg, hgl])] at h
        rw [is_char_boundary_of_some _ _ b hj hgl]
        exact h

/-- A byte index at a character boundary of an encoded string is the byte
length of the encoding of some character-prefix. -/
lemma boundary_is_prefix_sum : ∀ (cs : List Char) (i : Nat),
    is_char_boundary (utf8Bytes cs) i = true →
    ∃ k, k ≤ cs.length ∧ i = (utf8Bytes (cs.take k)).length := by
  intro cs
  induction cs with
  | nil =>
      intro i h
      have hle := boundary_le_length _ _ h
      simp only [utf8Bytes, List.map_nil, List.flatten_nil, List.length_nil] at hle
      exact ⟨0, by simp, by simpa [utf8Bytes] using Nat.le_zero.mp hle⟩
  | cons c cs ih =>
      intro i h
      by_cases hi0 : i = 0
      · exact ⟨0, by simp, by simp [hi0, utf8Bytes]⟩
      · obtain ⟨b0, bt, hcb, hb0, hbt⟩ := charBytes_shape c
        rcases Nat.lt_or_ge i (charBytes c).length with hlt | hge
        · exfalso
          have hgb : (utf8Bytes (c :: cs))[i]? = (charBytes c)[i]? := by
            rw [utf8Bytes_cons, List.getElem?_append, if_pos hlt]
          obtain ⟨b, hgbt, hmem⟩ : ∃ b, (charBytes c)[i]? = some b ∧ b ∈ bt := by
            cases i with
            | zero => exact absurd rfl hi0
            | succ j =>
                have hj : j < bt.length := by
                  rw [hcb] at hlt
                  simp only [List.length_cons] at hlt
                  omega
                refine ⟨bt[j], ?_, List.getElem_mem hj⟩
                rw [hcb, List.getElem?_cons_succ, List.getElem?_eq_getElem hj]
          obtain ⟨hc1, hc2⟩ := hbt _ hmem
          have hfalse := boundary_cont_false (utf8Bytes (c :: cs)) i b hi0
            (by rw [hgb]; exact hgbt) hc1 hc2
          rw [hfalse] at h
          exact Bool.false_ne_true h
        · have hib : is_char_boundary (utf8Bytes cs) (i - (charBytes c).length)
              = true := by
            apply boundary_append_right (charBytes c) (utf8Bytes cs)
            have : (charBytes c).length + (i - (charBytes c).length) = i := by omega
            rw [this, ← utf8Bytes_cons]
            exact h
          obtain ⟨k, hk, hik⟩ := ih _ hib
          refine ⟨k + 1, by simpa using hk, ?_⟩
          rw [List.take_succ_cons, utf8Bytes_cons, List.length_append, ← hik]
          omega

lemma adjustStart_ge (bs : List Nat) (i : Nat) : i ≤ adjustStart bs i := by
  rw [adjustStart_eq]
  split
  · split
    · exact Nat.le_refl i
    · exact Nat.le_trans (Nat.le_succ i) (adjustStart_ge bs (i + 1))
  · exact Nat.le_refl i
termination_by bs.length + 1 - i
decreasing_by omega

lemma adjustStart_boundary (bs : List Nat) (i : Nat) (h : i ≤ bs.length) :
    is_char_boundary bs (adjustStart bs i) = true := by
  rw [adjustStart_eq, if_pos h]
  split
  · assumption
  · rename_i hnb
    have hi : i + 1 ≤ bs.length := by
      rcases Nat.lt_or_ge i bs.length with hlt | hge
      · omega
      · exfalso
        have hieq : i = bs.length := by omega
        rw [hieq, is_char_boundary_length] at hnb
        exact hnb rfl
    exact adjustStart_boundary bs (i + 1) hi
termination_by bs.length + 1 - i
decreasing_by omega

lemma adjustStart_of_gt (bs : List Nat) (i : Nat) (h : bs.length < i) :
    adjustStart bs i = i := by
  rw [adjustStart_eq, if_neg (by omega)]

lemma adjustEnd_le_self (bs : List Nat) (i : Nat) : adjustEnd bs i ≤ i := by
  induction i with
  | zero => simp [adjustEnd]
  | succ j ih =>
      rw [adjustEnd]
      split
      · exact Nat.le_refl _
      · exact Nat.le_trans ih (Nat.le_succ j)

lemma adjustEnd_boundary (bs : List Nat) (i : Nat) :
    is_char_boundary bs (adjustEnd bs i) = true := by
  induction i with
  | zero => exact is_char_boundary_zero bs
  | succ j ih =>
      rw [adjustEnd]
      split
      · assumption
      · exact ih

lemma utf8_take_len_mono_strict (cs : List Char) (k1 k2 : Nat)
    (h1 : k1 < k2) (h2 : k2 ≤ cs.length) :
    (utf8Bytes (cs.take k1)).length < (utf8Bytes (cs.take k2)).length := by
  obtain ⟨d, hdpos, rfl⟩ : ∃ d, 0 < d ∧ k2 = k1 + d := ⟨k2 - k1, by omega, by omega⟩
  rw [List.take_add, utf8Bytes_append, List.length_append]
  have hne : (cs.drop k1).take d ≠ [] := by
    rw [← List.length_pos]
    simp only [List.length_take, List.length_drop]
    omega
  cases hmt : (cs.drop k1).take d with
  | nil => exact absurd hmt hne
  | cons x rest =>
      rw [utf8Bytes_cons, List.length_append]
      have := charBytes_length_pos x
      omega

lemma utf8_slice_eq (cs : List Char) (k1 k2 : Nat) (hk : k1 ≤ k2) :
    ((utf8Bytes cs).drop (utf8Bytes (cs.take k1)).length).take
        ((utf8Bytes (cs.take k2)).length - (utf8Bytes (cs.take k1)).length)
      = utf8Bytes ((cs.drop k1).take (k2 - k1)) := by
  obtain ⟨d, rfl⟩ : ∃ d, k2 = k1 + d := ⟨k2 - k1, by omega⟩
  rw [List.take_add, utf8Bytes_append, List.length_append,
      Nat.add_sub_cancel_left, Nat.add_sub_cancel_left]
  have hcs : utf8Bytes cs = utf8Bytes (cs.take k1) ++ utf8Bytes (cs.drop k1) := by
    rw [← utf8Bytes_append, List.take_append_drop]
  rw [hcs, List.drop_left]
  have hdk : utf8Bytes (cs.drop k1)
      = utf8Bytes ((cs.drop k1).take d) ++ utf8Bytes ((cs.drop k1).drop d) := by
    rw [← utf8Bytes_append, List.take_append_drop]
  rw [hdk, List.take_left]

/-- C3: `approx_substring` terminates on every input (it is a total
function); it only moves the start offset forward and the end offset
backward, returns the empty slice when the adjusted offsets cross, and its
result is always the UTF-8 encoding of a contiguous character subsequence
of the text — a valid UTF-8 string with no partial multi-byte character. -/
theorem claim_C3_approx_substring_utf8_safe (cs : List Char) (s e : Nat) :
    s ≤ adjustStart (utf8Bytes cs) s
    ∧ adjustEnd (utf8Bytes cs) e ≤ e
    ∧ (adjustEnd (utf8Bytes cs) e < adjustStart (utf8Bytes cs) s →
        approx_substring (utf8Bytes cs) s e = [])
    ∧ ∃ k1 k2, k1 ≤ k2 ∧ k2 ≤ cs.length
        ∧ approx_substring (utf8Bytes cs) s e
            = utf8Bytes ((cs.drop k1).take (k2 - k1)) := by
  refine ⟨adjustStart_ge _ s, adjustEnd_le_self _ e, ?_, ?_⟩
  · intro hcross
    simp only [approx_substring]
    rw [if_neg (by omega)]
  · by_cases hord : adjustStart (utf8Bytes cs) s ≤ adjustEnd (utf8Bytes cs) e
    · have hebd := adjustEnd_boundary (utf8Bytes cs) e
      have hsle : s ≤ (utf8Bytes cs).length := by
        by_contra hgt
        push_neg at hgt
        rw [adjustStart_of_gt _ _ hgt] at hord
        have := boundary_le_length _ _ hebd
        omega
      have hsbd := adjustStart_boundary (utf8Bytes cs) s hsle
      obtain ⟨k1, hk1, hpos1⟩ := boundary_is_prefix_sum cs _ hsbd
      obtain ⟨k2, hk2, hpos2⟩ := boundary_is_prefix_sum cs _ hebd
      have hkle : k1 ≤ k2 := by
        by_contra hlt
        push_neg at hlt
        have := utf8_take_len_mono_strict cs k2 k1 hlt hk1
        omega
      refine ⟨k1, k2, hkle, hk2, ?_⟩
      simp only [approx_substring]
      rw [if_pos hord, hpos1, hpos2]
      exact utf8_slice_eq cs k1 k2 hkle
    · push_neg at hord
      refine ⟨0, 0, Nat.le_refl 0, by simp, ?_⟩
      simp only [approx_substring]
      rw [if_neg (by omega)]
      simp [utf8Bytes]

example : approx_substring (utf8Bytes "中文".data) 1 6 = utf8Bytes "文".data := by
  decide

example : approx_substring (utf8Bytes "中文".data) 1 5 = [] := by decide

/-- Witness for C3 at crossed offsets inside the multi-byte characters of
`"中文"`: the adjusted offsets cross and the result is the empty slice. -/
theorem claim_C3_witness :
    adjustEnd (utf8Bytes "中文".data) 2 < adjustStart (utf8Bytes "中文".data) 4
    ∧ approx_substring (utf8Bytes "中文".data) 4 2 = [] :=
  ⟨by decide, (claim_C3_approx_substring_utf8_safe "中文".data 4 2).2.2.1 (by decide)⟩

end TextSearcher
